import Mathlib

/-!
Verification of the download-orchestration core of the Yeguo downloader
(`main.py`, class `VideoDownloader` and worker thread classes, plus
`src/workers/ed2k_download_worker.py`).

The shallow embedding below translates the scheduler state held by the
`VideoDownloader` main-window object and the methods that mutate it.
UI-only statements (labels, buttons, progress-bar visibility, message
boxes, logging) are elided; every statement that touches the scheduler
state (`is_downloading`, `download_progress`, `download_workers`,
`download_queue`, `active_downloads`) or a worker's control flags is
kept.  A ghost field `started` records the order in which
`start_download` is invoked, and a ghost table `threads` records every
spawned `DownloadWorker` object together with its `_is_cancelled` /
`_is_paused` flags and whether its QThread is still running
(`isRunning()`); the scheduler's own `download_workers` list is
modelled as the list of worker ids it currently holds.
-/

namespace Yeguo

/-- Percent values reported by yt-dlp progress dictionaries are modelled
exactly as rationals (the Python code parses `_percent_str` into a float). -/
abbrev Percent := Rat

/-- One `DownloadWorker` object (`main.py` lines 103-167): its identity,
its `_is_cancelled` and `_is_paused` flags, and whether its thread is
still running (`QThread.isRunning()`). -/
structure Worker where
  wid : Nat
  is_cancelled : Bool
  is_paused : Bool
  running : Bool
deriving DecidableEq

/-- Model of `DownloadWorker.cancel` (line 124-125): sets `_is_cancelled`. -/
def cancelW (w : Worker) : Worker := { w with is_cancelled := true }

/-- Model of `DownloadWorker.pause` (line 127-128): sets `_is_paused`. -/
def pauseW (w : Worker) : Worker := { w with is_paused := true }

/-- Model of `DownloadWorker.resume` (line 130-131): clears `_is_paused`. -/
def resumeW (w : Worker) : Worker := { w with is_paused := false }

/-- Python dict assignment `m[k] = v`: replace in place or append. -/
def setProg {κ : Type} [DecidableEq κ] :
    List (κ × Percent × String) → κ → Percent × String → List (κ × Percent × String)
  | [], k, v => [(k, v)]
  | (k', v') :: rest, k, v =>
    if k' = k then (k, v) :: rest else (k', v') :: setProg rest k v

/-- Python dict lookup `m.get(k)`. -/
def lookupProg {κ : Type} [DecidableEq κ] :
    List (κ × Percent × String) → κ → Option (Percent × String)
  | [], _ => none
  | (k', v') :: rest, k => if k' = k then some v' else lookupProg rest k

/-- The numerator `total_percent = sum(percent for percent, _ in ...)`
of `update_download_progress` (line 718). -/
def sumPercent {κ : Type} (m : List (κ × Percent × String)) : Percent :=
  (m.map (fun e => e.2.1)).sum

/-- The mean `avg_percent = total_percent / len(self.download_progress)`
of `update_download_progress` (line 720). -/
def avgPercent {κ : Type} (m : List (κ × Percent × String)) : Percent :=
  sumPercent m / (m.length : Percent)

/-- Scheduler state of the `VideoDownloader` object (fields initialised in
`__init__`, lines 176-184).  `download_progress` is keyed by the request id
standing for the output-file path string used by the Python dict.
`threads` and `started` are ghost state: all spawned worker objects, and
the submission-order log of `start_download` calls. -/
structure Sched where
  is_downloading : Bool
  download_progress : List (Nat × Percent × String)
  threads : List Worker
  download_workers : List Nat
  download_queue : List Nat
  active_downloads : Int
  started : List Nat
  next_wid : Nat
deriving DecidableEq

/-- The freshly constructed scheduler state (`__init__`). -/
def initSched : Sched := ⟨false, [], [], [], [], 0, [], 0⟩

/-- Number of worker threads whose `run` is still executing; a paused
worker's thread is still running, so this counts Running-or-Paused tasks. -/
def countRunning (ts : List Worker) : Nat := (ts.filter (fun w => w.running)).length

/-- Running-or-Paused task count of a scheduler state. -/
def runningCount (s : Sched) : Nat := countRunning s.threads

/-- Lookup a worker object by id (first match); mirrors holding a
reference to it. -/
def findWorker : List Worker → Nat → Option Worker
  | [], _ => none
  | w :: rest, wid => if w.wid = wid then some w else findWorker rest wid

/-- The `worker.isRunning()` test for the worker with the given id. -/
def isRunningId (ts : List Worker) (wid : Nat) : Bool :=
  match findWorker ts wid with
  | some w => w.running
  | none => false

/-- The `worker._is_cancelled` flag for the worker with the given id. -/
def isCancelledId (ts : List Worker) (wid : Nat) : Bool :=
  match findWorker ts wid with
  | some w => w.is_cancelled
  | none => false

/-- Model of `VideoDownloader.start_download` (lines 787-846): registers a
0% progress entry for the request's output file, creates and starts a
`DownloadWorker`, appends it to `download_workers` and increments
`active_downloads`.  The yt-dlp option assembly has no scheduler effect. -/
def start_download (s : Sched) (rid : Nat) : Sched :=
  { s with
    download_progress := setProg s.download_progress rid (0, ("未知速率")),
    threads := s.threads ++ [⟨s.next_wid, false, false, true⟩],
    download_workers := s.download_workers ++ [s.next_wid],
    active_downloads := s.active_downloads + 1,
    started := s.started ++ [rid],
    next_wid := s.next_wid + 1 }

/-- The admission loop of `download_selected` (lines 776-780): each
selected format is started immediately if `active_downloads` is below
`Config.MAX_CONCURRENT_DOWNLOADS`, otherwise appended to the queue. -/
def admitAll (mc : Nat) (fmts : List Nat) (s : Sched) : Sched :=
  fmts.foldl
    (fun st r =>
      if st.active_downloads < (mc : Int) then start_download st r
      else { st with download_queue := st.download_queue ++ [r] })
    s

/-- Model of `VideoDownloader.download_selected` (lines 733-785): with no
checked item it warns and returns; otherwise (FFmpeg assumed present) it
sets `is_downloading`, clears `download_progress` (line 765) and runs the
admission loop. -/
def download_selected (mc : Nat) (fmts : List Nat) (s : Sched) : Sched :=
  if fmts = [] then s
  else admitAll mc fmts { s with is_downloading := true, download_progress := [] }

/-- The drain loop of `update_download_progress` (lines 729-731):
`while active_downloads < MAX_CONCURRENT_DOWNLOADS and download_queue:`
pop the queue head and start it.  The loop pops one element per
iteration, so fuel `download_queue.length` reaches the fixpoint. -/
def drainAux (mc : Nat) : Nat → Sched → Sched
  | 0, s => s
  | fuel + 1, s =>
    if s.active_downloads < (mc : Int) then
      match s.download_queue with
      | [] => s
      | r :: rest => drainAux mc fuel (start_download { s with download_queue := rest } r)
    else s

/-- The displayed value computed by `update_download_progress`
(lines 707-727): on the idle branch nothing is computed (UI hidden),
otherwise the arithmetic mean of all entries of `download_progress`. -/
def tickReport (s : Sched) : Option Percent :=
  if ¬ s.is_downloading ∨ s.download_progress = [] then none
  else some (avgPercent s.download_progress)

/-- Model of `VideoDownloader.update_download_progress` (lines 707-731),
the 500 ms timer tick: early return when not downloading or no tracked
progress, otherwise (after updating the display) drain the queue. -/
def update_download_progress (mc : Nat) (s : Sched) : Sched :=
  if ¬ s.is_downloading ∨ s.download_progress = [] then s
  else drainAux mc s.download_queue.length s

/-- Model of `VideoDownloader.reset_download_state` (lines 972-986):
clears the progress map and the worker list, zeroes `active_downloads`
and drops `is_downloading`; the queue is NOT touched. -/
def reset_download_state (s : Sched) : Sched :=
  { s with
    download_progress := [],
    is_downloading := false,
    active_downloads := 0,
    download_workers := [] }

/-- Model of `VideoDownloader.on_download_finished` (lines 873-892):
decrement `active_downloads`, drop no-longer-running workers from the
list, and when no worker and no queued request remains show the
completion dialog, which ends in `reset_download_state` (line 917). -/
def on_download_finished (s : Sched) : Sched :=
  let s1 := { s with active_downloads := s.active_downloads - 1 }
  let s2 := { s1 with
    download_workers := s1.download_workers.filter (fun wid => isRunningId s1.threads wid) }
  if s2.download_workers = [] ∧ s2.download_queue = [] then reset_download_state s2 else s2

/-- Model of `VideoDownloader.on_download_error` (lines 932-938):
decrement `active_downloads` and reset the whole download state. -/
def on_download_error (s : Sched) : Sched :=
  reset_download_state { s with active_downloads := s.active_downloads - 1 }

/-- The pause branch of `VideoDownloader.pause_downloads` (lines 942-948):
`worker.pause()` on every running worker in `download_workers`. -/
def pauseAllWorkers (s : Sched) : Sched :=
  { s with threads := s.threads.map (fun (w : Worker) =>
      if w.wid ∈ s.download_workers ∧ w.running then pauseW w else w) }

/-- The resume branch of `VideoDownloader.pause_downloads` (lines 949-955). -/
def resumeAllWorkers (s : Sched) : Sched :=
  { s with threads := s.threads.map (fun (w : Worker) =>
      if w.wid ∈ s.download_workers ∧ w.running then resumeW w else w) }

/-- Model of `VideoDownloader.cancel_downloads` (lines 957-970), after the
user confirms: `worker.cancel()` on every running worker in
`download_workers`, clear the queue, and reset the download state. -/
def cancel_downloads (s : Sched) : Sched :=
  let s1 := { s with threads := s.threads.map (fun (w : Worker) =>
      if w.wid ∈ s.download_workers ∧ w.running then cancelW w else w) }
  reset_download_state { s1 with download_queue := [] }

/-- Marks the thread of the given worker as exited (its `run` returned). -/
def setNotRunning (s : Sched) (wid : Nat) : Sched :=
  { s with threads := s.threads.map (fun w =>
      if w.wid = wid then { w with running := false } else w) }

/-- The worker with this id is alive and not cancelled, so its `run` can
emit `finished` or `error` (`DownloadWorker.run`, lines 163-167). -/
def liveUncancelled (s : Sched) (wid : Nat) : Bool :=
  match findWorker s.threads wid with
  | some w => w.running && !w.is_cancelled
  | none => false

/-- The worker with this id is alive and cancelled, so its `run` exits
without emitting any terminal signal (lines 149-150 and 163). -/
def liveCancelled (s : Sched) (wid : Nat) : Bool :=
  match findWorker s.threads wid with
  | some w => w.running && w.is_cancelled
  | none => false

/-- External events driving the scheduler: user submission of a batch,
the 500 ms timer tick, a worker's `finished` / `error` signal (thread
exits, then the connected slot runs), the pause/resume/cancel buttons,
and a cancelled worker's thread observing its flag and exiting silently. -/
inductive Ev where
  | submit (fmts : List Nat)
  | tick
  | finish (wid : Nat)
  | errorW (wid : Nat)
  | pauseAll
  | resumeAll
  | cancelAll
  | observeCancel (wid : Nat)
deriving DecidableEq

/-- One scheduler transition per event. -/
def step (mc : Nat) (s : Sched) : Ev → Sched
  | .submit fmts => download_selected mc fmts s
  | .tick => update_download_progress mc s
  | .finish wid =>
      if liveUncancelled s wid then on_download_finished (setNotRunning s wid) else s
  | .errorW wid =>
      if liveUncancelled s wid then on_download_error (setNotRunning s wid) else s
  | .pauseAll => pauseAllWorkers s
  | .resumeAll => resumeAllWorkers s
  | .cancelAll => cancel_downloads s
  | .observeCancel wid => if liveCancelled s wid then setNotRunning s wid else s

/-- Run a sequence of events. -/
def execEvents (mc : Nat) (evs : List Ev) (s : Sched) : Sched := evs.foldl (step mc) s

/-- Event classifier: is this a user submission? -/
def isSubmit : Ev → Bool
  | .submit _ => true
  | _ => false

/-! ## The `DownloadWorker.run` loop (`main.py` lines 133-167)

The worker thread reads its `_is_cancelled` / `_is_paused` flags, which
are set asynchronously by `cancel` / `pause` / `resume`.  The embedding
skolemises these reads: a schedule lists, for the top-of-loop checks of
each `while True` iteration and for each `progress_hook` invocation
inside `ydl.download`, the flag values the read observes.  `msleep`
calls have no state effect and are elided. -/

/-- The status field of a yt-dlp progress dictionary (`d["status"]`). -/
inductive HStatus where
  | downloading
  | finishedS
  | otherS
deriving DecidableEq

/-- A yt-dlp progress dictionary as consumed by the hooks: its status,
`filename`, parsed `_percent_str` (`none` when `float()` raises) and
`_speed_str`. -/
structure HookD where
  status : HStatus
  filename : String
  percentStr : Option Percent
  speed : String
deriving DecidableEq


/-- Model of `VideoDownloader.download_progress_hook` (lines 692-705):
on a `downloading` dictionary store the parsed percent (0 on a parse
failure) and speed under the reported filename; on a `finished`
dictionary store `(100, 已完成)` under the reported filename; other
statuses leave the map untouched. -/
def download_progress_hook (d : HookD) (m : List (String × Percent × String)) :
    List (String × Percent × String) :=
  match d.status with
  | .downloading => setProg m d.filename (d.percentStr.getD 0, d.speed)
  | .finishedS => setProg m d.filename (100, ("已完成"))
  | .otherS => m

/-- Flag values observed by one read of `_is_cancelled` / `_is_paused`. -/
structure FlagObs where
  cancelled : Bool
  paused : Bool
deriving DecidableEq

/-- How one `ydl.download` call ends if no hook raises: normal return,
or an exception from the downloader itself. -/
inductive AttemptEnd where
  | ok
  | exn (msg : String)
deriving DecidableEq

/-- One `ydl.download` invocation: the progress-hook calls it would make
(each with the flag values that hook read observes) and how it ends. -/
structure Attempt where
  steps : List (FlagObs × HookD)
  fin : AttemptEnd
deriving DecidableEq

/-- One iteration of the `while True` loop: the flag values read by the
top-of-loop checks (lines 149-151) and the `ydl.download` attempt. -/
structure LoopIter where
  top : FlagObs
  att : Attempt
deriving DecidableEq

/-- Signals emitted by a `DownloadWorker`: `progress_signal`,
`log_signal`, `finished`, `error`. -/
inductive WEvent where
  | progressW (d : HookD)
  | logW (msg : String)
  | finishedW (filename : String)
  | errorEvW (msg : String)
deriving DecidableEq

/-- Outcome of one `ydl.download` call as seen by the loop. -/
inductive AttOutcome where
  | completed
  | raisedPaused
  | raisedCancelled
  | raisedExn (msg : String)
deriving DecidableEq

/-- Model of `DownloadWorker.progress_hook` (lines 133-140) iterated over
one `ydl.download` call: each hook raises `DownloadCancelled` /
`DownloadPaused` when the corresponding flag is observed, otherwise
records `last_filename` on a finished dictionary and emits the
progress signal.  Returns the emitted events, the final
`last_filename`, and the call's outcome. -/
def runAttempt : List (FlagObs × HookD) → AttemptEnd → Option String →
    List WEvent × Option String × AttOutcome
  | [], .ok, lf => ([], lf, .completed)
  | [], .exn m, lf => ([], lf, .raisedExn m)
  | (obs, d) :: rest, fin, lf =>
    if obs.cancelled then ([], lf, .raisedCancelled)
    else if obs.paused then ([], lf, .raisedPaused)
    else
      let lf1 := if d.status = HStatus.finishedS then some d.filename else lf
      let r := runAttempt rest fin lf1
      (WEvent.progressW d :: r.1, r.2.1, r.2.2)

/-- How the `while True` loop of `run` ends: `break`, an exception
propagating to the outer handler, or the schedule ran out (the worker is
still mid-transfer). -/
inductive RunEnd where
  | broke
  | exnOut (msg : String)
  | outOfSchedule
deriving DecidableEq

/-- Model of the `while True` loop of `DownloadWorker.run`
(lines 147-162): break when cancelled is observed at the top, idle
(msleep and re-check) when paused is observed at the top, otherwise run
`ydl.download`; a hook-raised `DownloadPaused` logs and retries, a
hook-raised `DownloadCancelled` logs and breaks, any other exception
propagates out of the loop. -/
def runLoop : List LoopIter → Option String → List WEvent × Option String × RunEnd
  | [], lf => ([], lf, .outOfSchedule)
  | it :: rest, lf =>
    if it.top.cancelled then ([], lf, .broke)
    else if it.top.paused then runLoop rest lf
    else
      let a := runAttempt it.att.steps it.att.fin lf
      match a.2.2 with
      | .completed => (a.1, a.2.1, .broke)
      | .raisedCancelled => (a.1 ++ [WEvent.logW ("下载已取消")], a.2.1, .broke)
      | .raisedPaused =>
        let r := runLoop rest a.2.1
        (a.1 ++ WEvent.logW ("下载暂停...") :: r.1, r.2.1, r.2.2)
      | .raisedExn m => (a.1, a.2.1, .exnOut m)

/-- Model of `DownloadWorker.run` (lines 142-167): run the loop, then
emit `finished(last_filename or "")` after a break — or `error` after a
propagated exception — unless `_is_cancelled` (read once more, as
`finalCancelled`) suppresses the terminal signal (lines 163-167). -/
def runWorker (sched : List LoopIter) (finalCancelled : Bool) : List WEvent :=
  let r := runLoop sched none
  match r.2.2 with
  | .broke => if finalCancelled then r.1 else r.1 ++ [WEvent.finishedW (r.2.1.getD (""))]
  | .exnOut m => if finalCancelled then r.1 else r.1 ++ [WEvent.errorEvW m]
  | .outOfSchedule => r.1

/-- A terminal signal of a `DownloadWorker` (its `finished` or `error`). -/
def isTerminalW : WEvent → Bool
  | .finishedW _ => true
  | .errorEvW _ => true
  | _ => false

/-- Number of terminal signals in a trace. -/
def terminalCount (evs : List WEvent) : Nat := (evs.filter isTerminalW).length

/-! ## The ED2K simulated transfer
(`src/workers/ed2k_download_worker.py`, `_simulate_ed2k_download`,
lines 353-437)

Only the chunk loop and its exit processing are embedded; the
connection-phase status messages and `time.sleep` calls before the loop
have no state effect.  The flag reads (`is_running`, `is_paused`) are
skolemised per read site, as for `DownloadWorker.run`; `time_diff > 0`
in `_update_progress_thread_safe` is taken as true (wall clock advances
across the 50 ms sleep of each chunk). -/

/-- Flag values observed by one read of `is_running` / `is_paused`. -/
structure EObs where
  running : Bool
  paused : Bool
deriving DecidableEq

/-- Signals emitted by the ED2K worker during the simulated download:
`status_updated`, `progress_updated` (percent kept), `download_finished`. -/
inductive EEvent where
  | statusE (msg : String)
  | progressE (pct : Nat)
  | finishedE
deriving DecidableEq

/-- Flag reads of one chunk iteration: the top-of-body check (line 396),
the successive reads of the `while is_paused and is_running` wait loop
(line 400), the `if not is_running` check after it (line 403), and the
read inside `_update_progress_thread_safe` (line 515). -/
structure ChunkSched where
  top : EObs
  wait : List EObs
  post : EObs
  prog : EObs
deriving DecidableEq

/-- The `while self.is_paused and self.is_running: time.sleep(0.1)` wait
(lines 400-401): polls until a read fails the condition; if the listed
reads are exhausted first, the worker is parked in the wait forever. -/
def waitExit : List EObs → Bool
  | [] => false
  | o :: rest => if o.paused ∧ o.running then waitExit rest else true

/-- How the chunk `for` loop ends. -/
inductive SimLoopEnd where
  | loopDone
  | loopBreak
  | hungWait
  | noSched
deriving DecidableEq

/-- The percent computed by `_update_progress_thread_safe` (line 535):
`int((downloaded_size / file_size) * 100)` when `file_size > 0`, else 0.
(The Python route goes through a float; the value is the floor of the
exact ratio.) -/
def pctOf (dl fs : Nat) : Nat := if 0 < fs then dl * 100 / fs else 0

/-- Model of the chunk loop of `_simulate_ed2k_download`
(lines 394-421): per chunk, break when not running or paused at the top
check, sit in the wait loop while paused, break when not running
afterwards, otherwise write `min(chunk_size, file_size - i*chunk_size)`
simulated bytes, bump `downloaded_size` and emit a thread-safe progress
update when the flags allow, then sleep.  Arguments: remaining schedule,
chunk index, remaining chunk count, `downloaded_size`. -/
def simLoop (fs chunkSize : Nat) :
    List ChunkSched → Nat → Nat → Nat → List EEvent × Nat × SimLoopEnd
  | _, _, 0, dl => ([], dl, .loopDone)
  | [], _, _ + 1, dl => ([], dl, .noSched)
  | cs :: rest, i, n + 1, dl =>
    if ¬ cs.top.running ∨ cs.top.paused then ([], dl, .loopBreak)
    else if ¬ waitExit cs.wait then ([], dl, .hungWait)
    else if ¬ cs.post.running then ([], dl, .loopBreak)
    else
      let csize := min chunkSize (fs - i * chunkSize)
      let dl1 := dl + csize
      let evs := if cs.prog.running ∧ ¬ cs.prog.paused
        then [EEvent.progressE (pctOf dl1 fs)] else []
      let r := simLoop fs chunkSize rest (i + 1) n dl1
      (evs ++ r.1, r.2.1, r.2.2)

/-- Outcome of the simulated download. -/
inductive SimResult where
  | finishedR
  | integrityError
  | interrupted
  | pausedForever
  | underdetermined
deriving DecidableEq

/-- Model of `_verify_file_integrity` (lines 446-478) on the written
file: the size difference to `file_size` must be within the 1 MB
tolerance (the deeper checks always succeed in the source). -/
def verifySize (written fs : Nat) : Bool :=
  ((written : Int) - (fs : Int)).natAbs ≤ 1048576

/-- Model of `_simulate_ed2k_download` (lines 353-437): run the chunk
loop over `max(1, file_size // chunk_size)` chunks starting from any
pre-existing partial size, then — when still running and not paused
(line 423) — verify integrity and emit `download_finished`, or raise;
otherwise only emit the status message `下载已中断` and return with NO
terminal signal (lines 431-433).  The written size is
`downloaded_size - initDl` because the target is opened with mode `wb`. -/
def edSimulate (fs initDl : Nat) (sched : List ChunkSched) (fobs : EObs) :
    List EEvent × Nat × SimResult :=
  let chunkSize := 1048576
  let total := max 1 (fs / chunkSize)
  let r := simLoop fs chunkSize sched 0 total initDl
  match r.2.2 with
  | .noSched => (r.1, r.2.1, .underdetermined)
  | .hungWait => (r.1, r.2.1, .pausedForever)
  | _ =>
    if fobs.running ∧ ¬ fobs.paused then
      if verifySize (r.2.1 - initDl) fs then (r.1 ++ [EEvent.finishedE], r.2.1, .finishedR)
      else (r.1, r.2.1, .integrityError)
    else (r.1 ++ [EEvent.statusE ("下载已中断")], r.2.1, .interrupted)

/-- Recognises a `download_finished` emission of the ED2K worker. -/
def isFinE : EEvent → Bool
  | .finishedE => true
  | _ => false

/-- Counts `download_finished` emissions of the ED2K worker. -/
def finishedECount (evs : List EEvent) : Nat := (evs.filter isFinE).length

/-! ## Filename sanitising (`VideoDownloader.sanitize_filename`,
`main.py` lines 318-328)

Strings are embedded as their character lists.  The save directory's
contents at call time (the names for which
`os.path.exists(os.path.join(save_path, name))` holds) are embedded as
the list `existing`.  The unbounded `while` loop of the source tries
the cleaned name, then `f"{base}_{counter}{ext}"` for counter = 1, 2,
...; it is embedded with fuel `existing.length + 2`, which the theorems
below prove sufficient to reach the same first free name the source
loop returns. -/

/-- The characters deleted by the substitution on line 320. -/
def illegalChars : List Char := ['<', '>', ':', '"', '/', '\\', '|', '?', '*']

/-- The substitution deleting every illegal character (line 320). -/
def cleanChars (l : List Char) : List Char :=
  l.filter (fun c => decide (c ∉ illegalChars))

/-- Index of the last dot (Python rfind; no path separator survives the
preceding substitution, so the basename starts at index 0). -/
def lastDotIdx (l : List Char) : Option Nat :=
  (List.range l.length).foldl
    (fun acc i => if l.getD i (' ') = '.' then some i else acc) none

/-- Model of `os.path.splitext` on a separator-free name: split at the
last dot provided some earlier character is not a dot (the CPython
`genericpath._splitext` rule), otherwise the extension is empty. -/
def splitextOn (l : List Char) : List Char × List Char :=
  match lastDotIdx l with
  | none => (l, [])
  | some i =>
    if (l.take i).any (fun c => decide (c ≠ '.')) then (l.take i, l.drop i) else (l, [])

/-- Decimal digit characters, most significant first; structural fuel
recursion (`n` itself bounds the number of divisions by ten). -/
def natCharsAux : Nat → Nat → List Char
  | 0, _ => []
  | fuel + 1, n =>
    if n = 0 then []
    else natCharsAux fuel (n / 10) ++ [Char.ofNat (48 + n % 10)]

/-- Decimal digit characters of a natural number (the rendering used by
the Python f-string `f"{base}_{counter}{ext}"`). -/
def natChars (n : Nat) : List Char :=
  if n = 0 then ['0'] else natCharsAux n n

/-- The name tried at loop turn `k`: turn 0 is the cleaned truncated
name itself, turn `k+1` is `f"{base}_{k+1}{ext}"`. -/
def candidateName (clean base ext : List Char) : Nat → List Char
  | 0 => clean
  | k + 1 => base ++ '_' :: (natChars (k + 1) ++ ext)

/-- The collision loop of lines 323-327: starting at turn `k`, keep
bumping the counter while the candidate names an existing file. -/
def findFree (clean base ext : List Char) (existing : List (List Char)) :
    Nat → Nat → Nat
  | 0, k => k
  | fuel + 1, k =>
    if candidateName clean base ext k ∈ existing then
      findFree clean base ext existing fuel (k + 1)
    else k

/-- Model of `VideoDownloader.sanitize_filename` (lines 318-328): delete
the illegal characters, truncate to `Config.MAX_FILENAME_LENGTH = 200`,
split base and extension, then return the first candidate that does not
name an existing file. -/
def sanitize_filename (existing : List (List Char)) (filename : List Char) : List Char :=
  let cleaned := (cleanChars filename).take 200
  let base := (splitextOn cleaned).1
  let ext := (splitextOn cleaned).2
  candidateName cleaned base ext
    (findFree cleaned base ext existing (existing.length + 2) 0)

/-! ## Derived predicates and sample states used by the theorems -/

/-- Events that neither run `on_download_error` nor `cancel_downloads`
(nor are the silent exit of a cancelled thread): user submissions,
timer ticks, successful terminations, pause and resume. -/
def safeEv : Ev → Bool
  | .submit _ => true
  | .tick => true
  | .finish _ => true
  | .pauseAll => true
  | .resumeAll => true
  | _ => false

/-- Scheduler bookkeeping invariant: worker ids are fresh and distinct,
`active_downloads` equals the number of Running-or-Paused worker
threads, that number is within the concurrency cap, and every running
thread is still referenced by `download_workers`. -/
def SchedInv (mc : Nat) (s : Sched) : Prop :=
  (∀ w ∈ s.threads, w.wid < s.next_wid)
  ∧ (s.threads.map Worker.wid).Nodup
  ∧ s.active_downloads = (runningCount s : Int)
  ∧ runningCount s ≤ mc
  ∧ ∀ w ∈ s.threads, w.running = true → w.wid ∈ s.download_workers

/-- A scheduler state with one tracked task at 40 percent. -/
def oneTaskSched : Sched := ⟨true, [(1, 40, ("v"))], [⟨0, false, false, true⟩], [0], [], 1, [1], 1⟩

/-- A single-iteration worker schedule that downloads one dictionary and
completes. -/
def oneHookIter : LoopIter :=
  ⟨⟨false, false⟩, ⟨[(⟨false, false⟩, ⟨HStatus.downloading, ("f"), some 10, ("v")⟩)], AttemptEnd.ok⟩⟩

/-- ED2K chunk schedule entry with all flag reads clear. -/
def chunkClear : ChunkSched := ⟨⟨true, false⟩, [⟨true, false⟩], ⟨true, false⟩, ⟨true, false⟩⟩

/-- ED2K chunk schedule entry whose top-of-body read observes the pause
flag. -/
def chunkPausedTop : ChunkSched := ⟨⟨true, true⟩, [], ⟨true, true⟩, ⟨true, true⟩⟩

/-- The simulated ED2K download of a 3 MB file whose pause flag is set
during the second chunk and stays set. -/
def pausedSim : List EEvent × Nat × SimResult :=
  edSimulate 3145728 0 [chunkClear, chunkPausedTop, chunkClear] ⟨true, true⟩

/-! ## Theorems -/

/-! ### C9: the aggregator never divides by zero -/

/-- C9: on every tick, if the tracked-progress map is empty (or no
download is active) the aggregator reports the idle state without
computing a mean; whenever it does report a percent, at least one task
is tracked and the percent is the sum of tracked percents divided by
the (positive) number of tracked tasks — so the denominator of the mean
is never zero and no NaN can arise. -/
theorem c9_no_div_by_zero : ∀ s : Sched,
    (s.download_progress = [] → tickReport s = none)
    ∧ ∀ q, tickReport s = some q →
        s.download_progress ≠ [] ∧ 0 < s.download_progress.length
        ∧ q = sumPercent s.download_progress / (s.download_progress.length : Percent) := by
  intro s
  constructor
  · intro h
    unfold tickReport
    rw [if_pos (Or.inr h)]
  · intro q hq
    unfold tickReport at hq
    by_cases hc : ¬ s.is_downloading ∨ s.download_progress = []
    · rw [if_pos hc] at hq
      exact absurd hq (by simp)
    · rw [if_neg hc] at hq
      push_neg at hc
      refine ⟨hc.2, List.length_pos.mpr hc.2, ?_⟩
      have := Option.some.inj hq
      rw [← this]
      rfl

/-- C9 witness: the theorem applied to a state with one task at 40%. -/
theorem c9_no_div_by_zero_witness :
    tickReport oneTaskSched = some 40
    ∧ (oneTaskSched.download_progress ≠ [] ∧ 0 < oneTaskSched.download_progress.length
       ∧ (40 : Percent) = sumPercent oneTaskSched.download_progress
           / (oneTaskSched.download_progress.length : Percent)) :=
  ⟨by simp [tickReport, oneTaskSched, avgPercent, sumPercent],
   (c9_no_div_by_zero oneTaskSched).2 40
     (by simp [tickReport, oneTaskSched, avgPercent, sumPercent])⟩

/-! ### C5: idempotence of pause and of the termination handler -/

/-- C5 counterexample (claim as stated is false): in the state reached
by submitting two requests and letting worker 0's thread finish,
invoking `on_download_finished` twice leaves a different
`active_downloads` than invoking it once — the second invocation is not
a no-op slot release, it decrements the counter again. -/
theorem c5_idempotence_counterexample :
    (on_download_finished (on_download_finished
        (setNotRunning (execEvents 2 [Ev.submit [1, 2]] initSched) 0))).active_downloads
      ≠ (on_download_finished
        (setNotRunning (execEvents 2 [Ev.submit [1, 2]] initSched) 0)).active_downloads := by
  decide

/-- C5 amended: `pause()` twice on the same task equals `pause()` once
(the flag assignment is idempotent), but `on_download_finished` is not
idempotent: a second invocation either decrements `active_downloads`
once more or (when it empties the worker list with an empty queue)
resets it to zero through the completion dialog. -/
theorem c5_idempotence_amended :
    (∀ w : Worker, pauseW (pauseW w) = pauseW w)
    ∧ ∀ s : Sched,
        (on_download_finished (on_download_finished s)).active_downloads
            = (on_download_finished s).active_downloads - 1
          ∨ (on_download_finished (on_download_finished s)).active_downloads = 0 := by
  constructor
  · intro w; rfl
  · intro s
    generalize on_download_finished s = t
    unfold on_download_finished reset_download_state
    dsimp only
    split
    · right; rfl
    · left; rfl

/-! ### C3: progress aggregation over the tracked map -/

/-- C3 counterexample (claim as stated is false): with three tasks
tracked at 10%, 50% and 90%, the terminal event of the third does not
remove it from the tracking map — the map keeps three entries, the
finished task is re-tracked at 100%, and the reported mean is 160/3,
not the mean 30 of the remaining two. -/
theorem c3_aggregation_counterexample :
    avgPercent (download_progress_hook ⟨HStatus.finishedS, ("c"), none, ("x")⟩
        (download_progress_hook ⟨HStatus.downloading, ("c"), some 90, ("v")⟩
          (download_progress_hook ⟨HStatus.downloading, ("b"), some 50, ("v")⟩
            (download_progress_hook ⟨HStatus.downloading, ("a"), some 10, ("v")⟩ [])))) = 160 / 3
    ∧ (160 / 3 : Percent) ≠ (10 + 50) / 2
    ∧ (download_progress_hook ⟨HStatus.finishedS, ("c"), none, ("x")⟩
        (download_progress_hook ⟨HStatus.downloading, ("c"), some 90, ("v")⟩
          (download_progress_hook ⟨HStatus.downloading, ("b"), some 50, ("v")⟩
            (download_progress_hook ⟨HStatus.downloading, ("a"), some 10, ("v")⟩ [])))).length = 3 := by
  refine ⟨?_, by norm_num, by simp [download_progress_hook, setProg]⟩
  simp [download_progress_hook, setProg, avgPercent, sumPercent]
  norm_num

/-- Python dict write then read of the same key. -/
theorem lookupProg_setProg_self {κ : Type} [DecidableEq κ]
    (m : List (κ × Percent × String)) (k : κ) (v : Percent × String) :
    lookupProg (setProg m k v) k = some v := by
  induction m with
  | nil => simp [setProg, lookupProg]
  | cons e rest ih =>
    by_cases h : e.1 = k
    · simp [setProg, h, lookupProg]
    · simp only [setProg, lookupProg]
      rw [if_neg h, lookupProg, if_neg h]
      exact ih

/-- A dict write never shrinks the dict. -/
theorem length_le_setProg {κ : Type} [DecidableEq κ]
    (m : List (κ × Percent × String)) (k : κ) (v : Percent × String) :
    m.length ≤ (setProg m k v).length := by
  induction m with
  | nil => simp [setProg]
  | cons e rest ih =>
    simp only [setProg]
    split
    · simp
    · simpa using ih

/-- C3 amended: the reported percent is the arithmetic mean over ALL
entries of the tracking map — three tasks at 10%, 50%, 90% do report
50% — but a task is not removed on its terminal event: the `finished`
hook re-tracks it under `(100, 已完成)` and the map never shrinks, so
after one task finishes the mean is over all three entries with the
finished one at 100, not over the remaining two. -/
theorem c3_aggregation_amended :
    avgPercent [((("a" : String)), (10 : Percent), ("v")), (("b"), 50, ("v")), (("c"), 90, ("v"))] = 50
    ∧ ∀ (m : List (String × Percent × String)) (d : HookD), d.status = HStatus.finishedS →
        lookupProg (download_progress_hook d m) d.filename = some (100, ("已完成"))
        ∧ m.length ≤ (download_progress_hook d m).length := by
  constructor
  · simp [avgPercent, sumPercent]
    norm_num
  · intro m d hd
    unfold download_progress_hook
    rw [hd]
    exact ⟨lookupProg_setProg_self m d.filename _, length_le_setProg m d.filename _⟩

/-- C3 witness: the amended theorem applied to a concrete finished
dictionary over a two-entry map. -/
theorem c3_aggregation_amended_witness :
    lookupProg (download_progress_hook ⟨HStatus.finishedS, ("c"), none, ("x")⟩
        [(("a"), 10, ("v")), (("c"), 90, ("v"))]) ("c") = some (100, ("已完成"))
    ∧ ([(("a" : String), (10 : Percent), ("v")), (("c"), 90, ("v"))] :
        List (String × Percent × String)).length
        ≤ (download_progress_hook ⟨HStatus.finishedS, ("c"), none, ("x")⟩
            [(("a"), 10, ("v")), (("c"), 90, ("v"))]).length :=
  c3_aggregation_amended.2 [(("a"), 10, ("v")), (("c"), 90, ("v"))]
    ⟨HStatus.finishedS, ("c"), none, ("x")⟩ rfl

/-! ### C1 and C2 counterexamples -/

/-- C1 counterexample (claim as stated is false): submit two requests
(cap 2), let one fail — the error handler resets `active_downloads` to
0 while the sibling worker thread is still running — then submit two
more; the admission guard sees 0 < 2 and starts both, so three worker
threads are Running simultaneously, exceeding the cap of 2. -/
theorem c1_capacity_counterexample :
    2 < runningCount (execEvents 2 [Ev.submit [1, 2], Ev.errorW 0, Ev.submit [3, 4]] initSched) := by
  decide

/-- C2 counterexample (claim as stated is false): submit three requests
(cap 2) so request 3 is queued, then let one running task fail.  The
failed task's slot is released (`active_downloads` = 0) and the queue
still holds request 3, yet the following tick admits nothing — the
error handler dropped `is_downloading`, so the scheduler does not admit
the next pending request. -/
theorem c2_failure_isolation_counterexample :
    (execEvents 2 [Ev.submit [1, 2, 3], Ev.errorW 0, Ev.tick] initSched).active_downloads = 0
    ∧ (execEvents 2 [Ev.submit [1, 2, 3], Ev.errorW 0, Ev.tick] initSched).download_queue = [3]
    ∧ (execEvents 2 [Ev.submit [1, 2, 3], Ev.errorW 0, Ev.tick] initSched).started = [1, 2] := by
  refine ⟨by decide, by decide, by decide⟩

/-! ### C6 and C7 counterexamples -/

/-- C6 counterexample (claim as stated is false): a started worker that
observes its own cancellation at the top of its run loop emits NO
terminal event at all — `finished` is suppressed because
`_is_cancelled` is set — rather than the one terminal event per start
the claim promises. -/
theorem c6_terminal_counterexample :
    runWorker [⟨⟨true, false⟩, ⟨[], AttemptEnd.ok⟩⟩] true = []
    ∧ terminalCount (runWorker [⟨⟨true, false⟩, ⟨[], AttemptEnd.ok⟩⟩] true) = 0 := by
  refine ⟨by decide, by decide⟩

/-- C7 counterexample (claim as stated is false): in the ED2K simulated
download of a 3 MB file, setting the pause flag during the second chunk
makes the top-of-body check break out of the transfer loop: the run
ends in the interrupted branch with only 1 MB of 3 MB downloaded and no
terminal event, instead of idling until resume and continuing — the
pause terminated the transfer early. -/
theorem c7_pause_counterexample :
    pausedSim.2.2 = SimResult.interrupted
    ∧ pausedSim.2.1 = 1048576
    ∧ pausedSim.2.1 < 3145728
    ∧ finishedECount pausedSim.1 = 0 := by
  refine ⟨by decide, by decide, by decide, by decide⟩

/-! ### Helper lemmas about worker lookup and counting -/

/-- Mapping an id-preserving function over the thread table commutes
with lookup by id. -/
theorem findWorker_map (f : Worker → Worker) (hf : ∀ w, (f w).wid = w.wid)
    (ts : List Worker) (wid : Nat) :
    findWorker (ts.map f) wid = (findWorker ts wid).map f := by
  induction ts with
  | nil => rfl
  | cons w ts ih =>
    simp only [List.map_cons, findWorker, hf w]
    by_cases h : w.wid = wid
    · rw [if_pos h, if_pos h]
      rfl
    · rw [if_neg h, if_neg h]
      exact ih

/-- Lookup-based `isRunning` is unchanged by an id- and
running-preserving rewrite of the thread table. -/
theorem isRunningId_map_preserve (f : Worker → Worker) (hfw : ∀ w, (f w).wid = w.wid)
    (hfr : ∀ w, (f w).running = w.running) (ts : List Worker) (wid : Nat) :
    isRunningId (ts.map f) wid = isRunningId ts wid := by
  unfold isRunningId
  rw [findWorker_map f hfw]
  cases findWorker ts wid
  · rfl
  · exact hfr _

/-- Marking worker `wid` as exited leaves every other worker's
`isRunning` unchanged. -/
theorem isRunningId_setOff_ne (ts : List Worker) (wid wid' : Nat) (h : wid' ≠ wid) :
    isRunningId (ts.map (fun w => if w.wid = wid then { w with running := false } else w)) wid'
      = isRunningId ts wid' := by
  unfold isRunningId
  rw [findWorker_map _ (fun w => by split <;> rfl)]
  induction ts with
  | nil => rfl
  | cons a ts ih =>
    simp only [findWorker]
    by_cases ha : a.wid = wid'
    · rw [if_pos ha]
      dsimp only [Option.map]
      rw [if_neg (by rw [ha]; exact h)]
    · rw [if_neg ha]
      exact ih

/-- With distinct worker ids, lookup of a member's id sees that member. -/
theorem findWorker_of_mem (ts : List Worker) (nd : (ts.map Worker.wid).Nodup)
    (w : Worker) (hw : w ∈ ts) : findWorker ts w.wid = some w := by
  induction ts with
  | nil => cases hw
  | cons a ts ih =>
    rw [List.map_cons, List.nodup_cons] at nd
    rcases List.mem_cons.mp hw with rfl | hmem
    · simp [findWorker]
    · have hne : a.wid ≠ w.wid := by
        intro hEq
        exact nd.1 (hEq ▸ List.mem_map_of_mem Worker.wid hmem)
      simp only [findWorker]
      rw [if_neg hne]
      exact ih nd.2 hmem

/-- With distinct worker ids, `isRunning` of a member reads its flag. -/
theorem isRunningId_of_mem (ts : List Worker) (nd : (ts.map Worker.wid).Nodup)
    (w : Worker) (hw : w ∈ ts) : isRunningId ts w.wid = w.running := by
  unfold isRunningId
  rw [findWorker_of_mem ts nd w hw]

/-- A successful lookup returns a worker carrying the looked-up id. -/
theorem findWorker_wid (ts : List Worker) (wid : Nat) (w : Worker)
    (h : findWorker ts wid = some w) : w.wid = wid := by
  induction ts with
  | nil => exact absurd h (by simp [findWorker])
  | cons a ts ih =>
    simp only [findWorker] at h
    by_cases ha : a.wid = wid
    · rw [if_pos ha] at h
      rw [← Option.some.inj h]
      exact ha
    · rw [if_neg ha] at h
      exact ih h

/-- Unfolding the count over a cons cell. -/
theorem countRunning_cons (w : Worker) (ts : List Worker) :
    countRunning (w :: ts) = (if w.running then 1 else 0) + countRunning ts := by
  unfold countRunning
  rw [List.filter_cons]
  cases hw : w.running <;> simp [hw, Nat.add_comm]

/-- Appending one worker adds its running bit to the count. -/
theorem countRunning_append_one (ts : List Worker) (w : Worker) :
    countRunning (ts ++ [w]) = countRunning ts + (if w.running then 1 else 0) := by
  unfold countRunning
  rw [List.filter_append, List.length_append]
  congr 1
  cases hw : w.running <;> simp [List.filter, hw]

/-- A running-preserving rewrite of the thread table keeps the count. -/
theorem countRunning_map_preserve (f : Worker → Worker)
    (hfr : ∀ w, (f w).running = w.running) (ts : List Worker) :
    countRunning (ts.map f) = countRunning ts := by
  induction ts with
  | nil => rfl
  | cons a ts ih =>
    rw [List.map_cons, countRunning_cons, countRunning_cons, hfr a, ih]

/-- An id-preserving rewrite of the thread table keeps the id list. -/
theorem map_wid_map (f : Worker → Worker) (hfw : ∀ w, (f w).wid = w.wid)
    (ts : List Worker) : (ts.map f).map Worker.wid = ts.map Worker.wid := by
  rw [List.map_map]
  exact List.map_congr_left (fun a _ => hfw a)

/-- Marking a running worker as exited decrements the Running-or-Paused
count by exactly one (worker ids distinct). -/
theorem countRunning_setOff (ts : List Worker) (wid : Nat) (w : Worker)
    (nd : (ts.map Worker.wid).Nodup)
    (hfind : findWorker ts wid = some w) (hr : w.running = true) :
    countRunning (ts.map (fun x => if x.wid = wid then { x with running := false } else x)) + 1
      = countRunning ts := by
  induction ts with
  | nil => exact absurd hfind (by simp [findWorker])
  | cons a ts ih =>
    rw [List.map_cons, List.nodup_cons] at nd
    simp only [findWorker] at hfind
    by_cases ha : a.wid = wid
    · rw [if_pos ha] at hfind
      have haw : w = a := (Option.some.inj hfind).symm
      subst haw
      have htail : ts.map (fun x => if x.wid = wid then { x with running := false } else x)
          = ts := by
        have h1 : ts.map (fun x => if x.wid = wid then { x with running := false } else x)
            = ts.map id := by
          apply List.map_congr_left
          intro x hx
          rw [if_neg]
          · rfl
          · intro hEq
            exact nd.1 (by rw [ha, ← hEq]; exact List.mem_map_of_mem Worker.wid hx)
        rw [h1, List.map_id]
      rw [List.map_cons, if_pos ha, htail, countRunning_cons, countRunning_cons]
      have hoff : ({ w with running := false } : Worker).running = false := rfl
      rw [hoff, hr]
      norm_num [Nat.add_comm]
    · rw [if_neg ha] at hfind
      have hrec := ih nd.2 hfind
      rw [List.map_cons, if_neg ha, countRunning_cons, countRunning_cons]
      omega

/-! ### Idle states admit nothing -/

/-- After a reset the scheduler is idle; no event except a new user
submission changes the `started` log or wakes it up. -/
theorem idle_step (mc : Nat) (s : Sched) (e : Ev) (hs : isSubmit e = false)
    (h1 : s.is_downloading = false) (h2 : s.download_progress = []) :
    (step mc s e).is_downloading = false ∧ (step mc s e).download_progress = []
    ∧ (step mc s e).started = s.started := by
  cases e with
  | submit fmts => simp [isSubmit] at hs
  | tick =>
    simp only [step]
    unfold update_download_progress
    rw [if_pos (Or.inl (by simp [h1]))]
    exact ⟨h1, h2, rfl⟩
  | finish wid =>
    simp only [step]
    split
    · unfold on_download_finished reset_download_state setNotRunning
      dsimp only
      split
      · exact ⟨rfl, rfl, rfl⟩
      · exact ⟨h1, h2, rfl⟩
    · exact ⟨h1, h2, rfl⟩
  | errorW wid =>
    simp only [step]
    split
    · exact ⟨rfl, rfl, rfl⟩
    · exact ⟨h1, h2, rfl⟩
  | pauseAll => exact ⟨h1, h2, rfl⟩
  | resumeAll => exact ⟨h1, h2, rfl⟩
  | cancelAll => exact ⟨rfl, rfl, rfl⟩
  | observeCancel wid =>
    simp only [step]
    split
    · exact ⟨h1, h2, rfl⟩
    · exact ⟨h1, h2, rfl⟩

/-- From an idle state, no sequence of non-submission events ever starts
another download. -/
theorem started_stable_of_idle (mc : Nat) (evs : List Ev) :
    ∀ s : Sched, s.is_downloading = false → s.download_progress = [] →
    (∀ e ∈ evs, isSubmit e = false) →
    (execEvents mc evs s).started = s.started := by
  induction evs with
  | nil => intro s _ _ _; rfl
  | cons e rest ih =>
    intro s h1 h2 h3
    obtain ⟨g1, g2, g3⟩ := idle_step mc s e (h3 e (List.mem_cons_self e rest)) h1 h2
    show (execEvents mc rest (step mc s e)).started = s.started
    rw [ih (step mc s e) g1 g2 (fun e' he' => h3 e' (List.mem_cons_of_mem e he')), g3]

/-! ### C2: failure isolation -/

/-- C2 amended: when one task fails, the pending queue keeps its
contents and every sibling worker thread keeps its running state — but
the error handler resets the whole download state, after which no
sequence of non-submission events ever admits a pending request: the
scheduler does NOT admit the next pending request when the failed
task's slot is released; only a new user submission restarts admission. -/
theorem c2_failure_isolation_amended :
    (∀ (mc : Nat) (s : Sched) (wid : Nat),
      (step mc s (Ev.errorW wid)).download_queue = s.download_queue)
    ∧ (∀ (mc : Nat) (s : Sched) (wid wid' : Nat), wid' ≠ wid →
        isRunningId (step mc s (Ev.errorW wid)).threads wid'
          = isRunningId s.threads wid')
    ∧ ∀ (mc : Nat) (s : Sched) (wid : Nat) (evs : List Ev),
        liveUncancelled s wid = true → (∀ e ∈ evs, isSubmit e = false) →
        (execEvents mc evs (step mc s (Ev.errorW wid))).started
          = (step mc s (Ev.errorW wid)).started := by
  refine ⟨?_, ?_, ?_⟩
  · intro mc s wid
    simp only [step]
    split <;> rfl
  · intro mc s wid wid' hne
    simp only [step]
    split
    · exact isRunningId_setOff_ne s.threads wid wid' hne
    · rfl
  · intro mc s wid evs hlive hnosub
    simp only [step]
    rw [if_pos hlive]
    exact started_stable_of_idle mc evs _ rfl rfl hnosub

/-- C2 witness: the amended theorem applied to the one-task state, with
worker 5 as an (absent) sibling id and a tick after the failure. -/
theorem c2_failure_isolation_amended_witness :
    (step 2 oneTaskSched (Ev.errorW 0)).download_queue = oneTaskSched.download_queue
    ∧ isRunningId (step 2 oneTaskSched (Ev.errorW 0)).threads 5
        = isRunningId oneTaskSched.threads 5
    ∧ (execEvents 2 [Ev.tick] (step 2 oneTaskSched (Ev.errorW 0))).started
        = (step 2 oneTaskSched (Ev.errorW 0)).started :=
  ⟨c2_failure_isolation_amended.1 2 oneTaskSched 0,
   c2_failure_isolation_amended.2.1 2 oneTaskSched 0 5 (by decide),
   c2_failure_isolation_amended.2.2 2 oneTaskSched 0 [Ev.tick] (by decide) (by decide)⟩

/-! ### C8: cancel-all drains the queue -/

/-- C8: after `cancel_downloads`, the pending queue is empty; every
running worker referenced by the scheduler's `download_workers` list has
its cancellation flag set; the call stops no thread itself (teardown is
asynchronous: every thread's running state is unchanged); from the
resulting idle state no sequence of non-submission events ever starts a
request; and in the concrete scenario — cap 1, five submitted requests,
immediate cancel-all, then the lone worker observes its flag and exits —
only the first request was ever started, the queue is empty and no
worker is Running. -/
theorem c8_cancel_all :
    (∀ s : Sched, (cancel_downloads s).download_queue = [])
    ∧ (∀ (s : Sched) (wid : Nat), wid ∈ s.download_workers →
        isRunningId s.threads wid = true →
        isCancelledId (cancel_downloads s).threads wid = true)
    ∧ (∀ (s : Sched) (wid : Nat),
        isRunningId (cancel_downloads s).threads wid = isRunningId s.threads wid)
    ∧ (∀ (mc : Nat) (s : Sched) (evs : List Ev), (∀ e ∈ evs, isSubmit e = false) →
        (execEvents mc evs (cancel_downloads s)).started = (cancel_downloads s).started)
    ∧ ((execEvents 1 [Ev.submit [1, 2, 3, 4, 5], Ev.cancelAll, Ev.observeCancel 0] initSched).started = [1]
       ∧ (execEvents 1 [Ev.submit [1, 2, 3, 4, 5], Ev.cancelAll, Ev.observeCancel 0] initSched).download_queue = []
       ∧ runningCount (execEvents 1 [Ev.submit [1, 2, 3, 4, 5], Ev.cancelAll, Ev.observeCancel 0] initSched) = 0) := by
  refine ⟨fun s => rfl, ?_, ?_, ?_, by decide, by decide, by decide⟩
  · intro s wid hmem hrun
    show isCancelledId (s.threads.map _) wid = true
    unfold isCancelledId
    rw [findWorker_map _ (fun w => by split <;> rfl)]
    unfold isRunningId at hrun
    cases hfw : findWorker s.threads wid with
    | none => rw [hfw] at hrun; exact absurd hrun Bool.false_ne_true
    | some w =>
      rw [hfw] at hrun
      have hww : w.wid = wid := findWorker_wid s.threads wid w hfw
      dsimp only [Option.map]
      rw [if_pos ⟨by rw [hww]; exact hmem, hrun⟩]
      rfl
  · intro s wid
    show isRunningId (s.threads.map _) wid = isRunningId s.threads wid
    exact isRunningId_map_preserve _ (fun w => by split <;> rfl)
      (fun w => by split <;> rfl) s.threads wid
  · intro mc s evs hnosub
    exact started_stable_of_idle mc evs _ rfl rfl hnosub

/-- C8 witness: the theorem applied to the one-task state (its worker 0
is running and referenced) and to a tick from the cancelled state. -/
theorem c8_cancel_all_witness :
    (cancel_downloads oneTaskSched).download_queue = []
    ∧ isCancelledId (cancel_downloads oneTaskSched).threads 0 = true
    ∧ isRunningId (cancel_downloads oneTaskSched).threads 0
        = isRunningId oneTaskSched.threads 0
    ∧ (execEvents 2 [Ev.tick] (cancel_downloads oneTaskSched)).started
        = (cancel_downloads oneTaskSched).started :=
  ⟨c8_cancel_all.1 oneTaskSched,
   c8_cancel_all.2.1 oneTaskSched 0 (by decide) (by decide),
   c8_cancel_all.2.2.1 oneTaskSched 0,
   c8_cancel_all.2.2.2.1 2 oneTaskSched [Ev.tick] (by decide)⟩

/-! ### C1: the concurrency cap -/

/-- Starting a download under the admission guard preserves the
scheduler invariant. -/
theorem schedInv_start (mc : Nat) (s : Sched) (r : Nat) (inv : SchedInv mc s)
    (hlt : s.active_downloads < (mc : Int)) : SchedInv mc (start_download s r) := by
  obtain ⟨fresh, nodup, hact, hle, hmem⟩ := inv
  have hcount : countRunning (s.threads ++ [(⟨s.next_wid, false, false, true⟩ : Worker)])
      = countRunning s.threads + 1 := by
    rw [countRunning_append_one]
    rfl
  have hclt : countRunning s.threads < mc := by
    have h2 : (countRunning s.threads : Int) < (mc : Int) := hact ▸ hlt
    exact_mod_cast h2
  unfold SchedInv runningCount
  simp only [start_download]
  refine ⟨?_, ?_, ?_, ?_, ?_⟩
  · intro w hw
    rcases List.mem_append.mp hw with h | h
    · exact Nat.lt_succ_of_lt (fresh w h)
    · rw [List.mem_singleton.mp h]
      exact Nat.lt_succ_self _
  · rw [List.map_append, List.nodup_append]
    refine ⟨nodup, List.nodup_singleton _, ?_⟩
    intro a ha hb
    rw [List.map_singleton, List.mem_singleton] at hb
    obtain ⟨y, hy, hEq⟩ := List.mem_map.mp ha
    exact absurd (hb ▸ hEq ▸ fresh y hy) (lt_irrefl _)
  · rw [hcount, hact]
    push_cast
    rfl
  · rw [hcount]
    exact hclt
  · intro w hw hrun
    rcases List.mem_append.mp hw with h | h
    · exact List.mem_append_left _ (hmem w h hrun)
    · rw [List.mem_singleton.mp h]
      exact List.mem_append_right _ (List.mem_singleton.mpr rfl)

/-- The admission loop of `download_selected` preserves the invariant. -/
theorem schedInv_admitAll (mc : Nat) : ∀ (fmts : List Nat) (s : Sched),
    SchedInv mc s → SchedInv mc (admitAll mc fmts s) := by
  intro fmts
  induction fmts with
  | nil => intro s inv; exact inv
  | cons r rest ih =>
    intro s inv
    have hstep : admitAll mc (r :: rest) s
        = admitAll mc rest (if s.active_downloads < (mc : Int) then start_download s r
            else { s with download_queue := s.download_queue ++ [r] }) := rfl
    rw [hstep]
    by_cases h : s.active_downloads < (mc : Int)
    · rw [if_pos h]
      exact ih _ (schedInv_start mc s r inv h)
    · rw [if_neg h]
      exact ih _ inv

/-- The tick's drain loop preserves the invariant. -/
theorem schedInv_drain (mc : Nat) : ∀ (fuel : Nat) (s : Sched),
    SchedInv mc s → SchedInv mc (drainAux mc fuel s) := by
  intro fuel
  induction fuel with
  | zero => intro s inv; exact inv
  | succ fuel ih =>
    intro s inv
    unfold drainAux
    split
    case isTrue hlt =>
      split
      · exact inv
      · exact ih _ (schedInv_start mc _ _ inv hlt)
    case isFalse => exact inv

/-- An id- and running-preserving rewrite of the thread table preserves
the invariant (used for the pause and resume fan-outs). -/
theorem schedInv_mapThreads (mc : Nat) (s : Sched) (f : Worker → Worker)
    (hfw : ∀ w, (f w).wid = w.wid) (hfr : ∀ w, (f w).running = w.running)
    (inv : SchedInv mc s) : SchedInv mc { s with threads := s.threads.map f } := by
  obtain ⟨fresh, nodup, hact, hle, hmem⟩ := inv
  have hA := map_wid_map f hfw s.threads
  have hC := countRunning_map_preserve f hfr s.threads
  unfold SchedInv runningCount
  dsimp only
  refine ⟨?_, ?_, ?_, ?_, ?_⟩
  · intro w hw
    obtain ⟨y, hy, hEq⟩ := List.mem_map.mp hw
    rw [← hEq, hfw y]
    exact fresh y hy
  · rw [hA]
    exact nodup
  · rw [hC]
    exact hact
  · rw [hC]
    exact hle
  · intro w hw hrun
    obtain ⟨y, hy, hEq⟩ := List.mem_map.mp hw
    rw [← hEq, hfw y]
    exact hmem y hy (by rw [← hfr y, hEq]; exact hrun)

/-- A successful termination — the thread exits, then
`on_download_finished` runs — preserves the scheduler invariant. -/
theorem schedInv_finish (mc : Nat) (s : Sched) (wid : Nat) (w : Worker)
    (hfw : findWorker s.threads wid = some w) (hrun : w.running = true)
    (inv : SchedInv mc s) :
    SchedInv mc (on_download_finished (setNotRunning s wid)) := by
  obtain ⟨fresh, nodup, hact, hle, hmem⟩ := inv
  have hA : ((setNotRunning s wid).threads).map Worker.wid = s.threads.map Worker.wid :=
    map_wid_map _ (fun x => by split <;> rfl) s.threads
  have hB : countRunning (setNotRunning s wid).threads + 1 = countRunning s.threads :=
    countRunning_setOff s.threads wid w nodup hfw hrun
  have hfresh : ∀ x ∈ (setNotRunning s wid).threads, x.wid < s.next_wid := by
    intro x hx
    have hxm : x.wid ∈ ((setNotRunning s wid).threads).map Worker.wid :=
      List.mem_map_of_mem _ hx
    rw [hA] at hxm
    obtain ⟨y, hy, hEq⟩ := List.mem_map.mp hxm
    rw [← hEq]
    exact fresh y hy
  have hnodup : (((setNotRunning s wid).threads).map Worker.wid).Nodup := by
    rw [hA]; exact nodup
  have hmem2 : ∀ x ∈ (setNotRunning s wid).threads, x.running = true →
      x.wid ∈ s.download_workers.filter
        (fun u => isRunningId (setNotRunning s wid).threads u) := by
    intro x hx hxr
    obtain ⟨y, hy, hEq⟩ := List.mem_map.mp hx
    have hyne : y.wid ≠ wid := by
      intro hEq2
      rw [← hEq] at hxr
      simp only [if_pos hEq2] at hxr
      exact Bool.false_ne_true hxr
    have hxy : x = y := by rw [← hEq]; simp only [if_neg hyne]
    have hyr : y.running = true := by rw [← hxy]; exact hxr
    apply List.mem_filter.mpr
    refine ⟨by rw [hxy]; exact hmem y hy hyr, ?_⟩
    rw [isRunningId_of_mem _ hnodup x hx]
    exact hxr
  unfold on_download_finished
  dsimp only
  split
  · rename_i hcond
    have hnone : ∀ x ∈ (setNotRunning s wid).threads, x.running = false := by
      intro x hx
      cases hxr : x.running
      · rfl
      · exact absurd (hcond.1 ▸ hmem2 x hx hxr) (List.not_mem_nil _)
    have hzero : countRunning (setNotRunning s wid).threads = 0 := by
      unfold countRunning
      rw [List.filter_eq_nil_iff.mpr (fun a ha => by rw [hnone a ha]; exact Bool.false_ne_true)]
      rfl
    unfold SchedInv runningCount reset_download_state
    dsimp only
    refine ⟨hfresh, hnodup, ?_, ?_, ?_⟩
    · rw [hzero]
      rfl
    · rw [hzero]
      exact Nat.zero_le mc
    · intro x hx hxr
      exact absurd hxr (by rw [hnone x hx]; exact Bool.false_ne_true)
  · unfold SchedInv runningCount
    dsimp only
    refine ⟨hfresh, hnodup, ?_, ?_, hmem2⟩
    · have hcast : (countRunning (setNotRunning s wid).threads : Int) + 1
          = (countRunning s.threads : Int) := by exact_mod_cast hB
      have hact2 : s.active_downloads = (countRunning s.threads : Int) := hact
      have hsr : (setNotRunning s wid).active_downloads = s.active_downloads := rfl
      omega
    · have : countRunning (setNotRunning s wid).threads < countRunning s.threads := by omega
      unfold runningCount at hle
      omega

/-- Every safe event (submission, tick, successful termination, pause,
resume) preserves the scheduler invariant. -/
theorem schedInv_step (mc : Nat) (s : Sched) (e : Ev) (hsafe : safeEv e = true)
    (inv : SchedInv mc s) : SchedInv mc (step mc s e) := by
  cases e with
  | submit fmts =>
    simp only [step]
    unfold download_selected
    split
    · exact inv
    · exact schedInv_admitAll mc fmts _ inv
  | tick =>
    simp only [step]
    unfold update_download_progress
    split
    · exact inv
    · exact schedInv_drain mc _ s inv
  | finish wid =>
    simp only [step]
    split
    · rename_i hlive
      unfold liveUncancelled at hlive
      cases hfw : findWorker s.threads wid with
      | none => rw [hfw] at hlive; exact absurd hlive Bool.false_ne_true
      | some w =>
        rw [hfw, Bool.and_eq_true] at hlive
        exact schedInv_finish mc s wid w hfw hlive.1 inv
    · exact inv
  | errorW wid => simp [safeEv] at hsafe
  | pauseAll =>
    simp only [step]
    exact schedInv_mapThreads mc s _ (fun w => by split <;> rfl) (fun w => by split <;> rfl) inv
  | resumeAll =>
    simp only [step]
    exact schedInv_mapThreads mc s _ (fun w => by split <;> rfl) (fun w => by split <;> rfl) inv
  | cancelAll => simp [safeEv] at hsafe
  | observeCancel wid => simp [safeEv] at hsafe

/-- The invariant holds along every run of safe events. -/
theorem schedInv_exec (mc : Nat) (evs : List Ev) : ∀ s : Sched,
    (∀ e ∈ evs, safeEv e = true) → SchedInv mc s →
    SchedInv mc (execEvents mc evs s) := by
  induction evs with
  | nil => intro s _ inv; exact inv
  | cons e rest ih =>
    intro s hsafe inv
    show SchedInv mc (execEvents mc rest (step mc s e))
    exact ih _ (fun e' he' => hsafe e' (List.mem_cons_of_mem e he'))
      (schedInv_step mc s e (hsafe e (List.mem_cons_self e rest)) inv)

/-- The invariant holds initially. -/
theorem schedInv_init (mc : Nat) : SchedInv mc initSched := by
  refine ⟨?_, ?_, ?_, ?_, ?_⟩ <;> simp [initSched, runningCount, countRunning]

/-- Once the admission loop is at capacity it only queues: no download
is started. -/
theorem admitAll_saturated (mc : Nat) : ∀ (fmts : List Nat) (s : Sched),
    (mc : Int) ≤ s.active_downloads →
    admitAll mc fmts s = { s with download_queue := s.download_queue ++ fmts } := by
  intro fmts
  induction fmts with
  | nil =>
    intro s h
    show s = _
    rw [List.append_nil]
  | cons r rest ih =>
    intro s h
    have hstep : admitAll mc (r :: rest) s
        = admitAll mc rest (if s.active_downloads < (mc : Int) then start_download s r
            else { s with download_queue := s.download_queue ++ [r] }) := rfl
    rw [hstep, if_neg (not_lt.mpr h)]
    rw [ih { s with download_queue := s.download_queue ++ [r] } h]
    rw [List.append_assoc]
    rfl

/-- C1 amended: over every sequence of submissions, ticks, successful
terminations, pauses and resumes, the number of Running-or-Paused worker
threads never exceeds `MAX_CONCURRENT_DOWNLOADS` and always equals
`active_downloads` (a new worker is started only when that counter is
strictly below the cap); and once the counter has reached the cap the
admission loop starts nothing, it only queues.  The bound does NOT
survive `on_download_error`'s reset (see the counterexample): the
amended invariant holds exactly for runs without the error- or
cancel-triggered reset. -/
theorem c1_capacity_amended :
    (∀ (mc : Nat) (evs : List Ev), (∀ e ∈ evs, safeEv e = true) →
      runningCount (execEvents mc evs initSched) ≤ mc
      ∧ (execEvents mc evs initSched).active_downloads
          = (runningCount (execEvents mc evs initSched) : Int))
    ∧ ∀ (mc : Nat) (fmts : List Nat) (s : Sched), (mc : Int) ≤ s.active_downloads →
        (admitAll mc fmts s).started = s.started := by
  constructor
  · intro mc evs hsafe
    obtain ⟨_, _, hact, hle, _⟩ := schedInv_exec mc evs initSched hsafe (schedInv_init mc)
    exact ⟨hle, hact⟩
  · intro mc fmts s h
    rw [admitAll_saturated mc fmts s h]

/-- C1 witness: the amended theorem applied to a concrete safe run (cap
2: submit three requests, tick, finish the first worker, tick) and to a
saturated admission at cap 0. -/
theorem c1_capacity_amended_witness :
    runningCount (execEvents 2 [Ev.submit [1, 2, 3], Ev.tick, Ev.finish 0, Ev.tick] initSched) ≤ 2
    ∧ (execEvents 2 [Ev.submit [1, 2, 3], Ev.tick, Ev.finish 0, Ev.tick] initSched).active_downloads
        = (runningCount (execEvents 2 [Ev.submit [1, 2, 3], Ev.tick, Ev.finish 0, Ev.tick] initSched) : Int)
    ∧ (admitAll 0 [7] oneTaskSched).started = oneTaskSched.started :=
  ⟨(c1_capacity_amended.1 2 [Ev.submit [1, 2, 3], Ev.tick, Ev.finish 0, Ev.tick] (by decide)).1,
   (c1_capacity_amended.1 2 [Ev.submit [1, 2, 3], Ev.tick, Ev.finish 0, Ev.tick] (by decide)).2,
   c1_capacity_amended.2 0 [7] oneTaskSched (by decide)⟩

/-! ### C4: FIFO admission -/

/-- The drain loop moves queue heads to the `started` log: the
concatenation `started ++ queue` is unchanged. -/
theorem drain_started_queue (mc : Nat) : ∀ (fuel : Nat) (s : Sched),
    (drainAux mc fuel s).started ++ (drainAux mc fuel s).download_queue
      = s.started ++ s.download_queue := by
  intro fuel
  induction fuel with
  | zero => intro s; rfl
  | succ fuel ih =>
    intro s
    unfold drainAux
    split
    · split
      · rfl
      · rename_i r rest heq
        rw [ih (start_download { s with download_queue := rest } r)]
        show (s.started ++ [r]) ++ rest = _
        rw [heq, List.append_assoc, List.singleton_append]
    · rfl

/-- `on_download_finished` never touches the `started` log or the queue. -/
theorem on_download_finished_started_queue (t : Sched) :
    (on_download_finished t).started = t.started
    ∧ (on_download_finished t).download_queue = t.download_queue := by
  unfold on_download_finished reset_download_state
  dsimp only
  split
  · exact ⟨rfl, rfl⟩
  · exact ⟨rfl, rfl⟩

/-- Any non-submission event keeps `started ++ queue ++ ?` a realisation
of some fixed submission batch: requests are only ever moved from the
queue head to the started log (or dropped wholesale by cancel-all). -/
theorem stepKeepsBatch (mc : Nat) (s : Sched) (e : Ev) (fmts : List Nat)
    (hns : isSubmit e = false)
    (h : ∃ t, s.started ++ s.download_queue ++ t = fmts) :
    ∃ t, (step mc s e).started ++ (step mc s e).download_queue ++ t = fmts := by
  obtain ⟨t, ht⟩ := h
  cases e with
  | submit fmts2 => simp [isSubmit] at hns
  | tick =>
    simp only [step]
    unfold update_download_progress
    split
    · exact ⟨t, ht⟩
    · refine ⟨t, ?_⟩
      rw [drain_started_queue mc s.download_queue.length s]
      exact ht
  | finish wid =>
    simp only [step]
    split
    · obtain ⟨h1, h2⟩ := on_download_finished_started_queue (setNotRunning s wid)
      refine ⟨t, ?_⟩
      rw [h1, h2]
      exact ht
    · exact ⟨t, ht⟩
  | errorW wid =>
    simp only [step]
    split
    · exact ⟨t, ht⟩
    · exact ⟨t, ht⟩
  | pauseAll => exact ⟨t, ht⟩
  | resumeAll => exact ⟨t, ht⟩
  | cancelAll =>
    refine ⟨s.download_queue ++ t, ?_⟩
    show s.started ++ [] ++ (s.download_queue ++ t) = fmts
    rw [List.append_nil, ← List.append_assoc]
    exact ht
  | observeCancel wid =>
    simp only [step]
    split
    · exact ⟨t, ht⟩
    · exact ⟨t, ht⟩

/-- The prefix realisation is preserved along every run of
non-submission events. -/
theorem execKeepsBatch (mc : Nat) (evs : List Ev) (fmts : List Nat) : ∀ s : Sched,
    (∀ e ∈ evs, isSubmit e = false) →
    (∃ t, s.started ++ s.download_queue ++ t = fmts) →
    ∃ t, (execEvents mc evs s).started ++ (execEvents mc evs s).download_queue ++ t = fmts := by
  induction evs with
  | nil => intro s _ h; exact h
  | cons e rest ih =>
    intro s hns h
    show ∃ t, (execEvents mc rest (step mc s e)).started ++ _ ++ t = fmts
    exact ih _ (fun e' he' => hns e' (List.mem_cons_of_mem e he'))
      (stepKeepsBatch mc s e fmts (hns e (List.mem_cons_self e rest)) h)

/-- The admission loop of a submission realises the batch exactly when
the queue starts empty: `started ++ queue = started₀ ++ fmts`. -/
theorem admitAll_started_queue (mc : Nat) : ∀ (fmts : List Nat) (s : Sched),
    s.download_queue = [] →
    (admitAll mc fmts s).started ++ (admitAll mc fmts s).download_queue
      = s.started ++ fmts := by
  intro fmts
  induction fmts with
  | nil =>
    intro s h
    show s.started ++ s.download_queue = s.started ++ []
    rw [h]
  | cons r rest ih =>
    intro s h
    have hstep : admitAll mc (r :: rest) s
        = admitAll mc rest (if s.active_downloads < (mc : Int) then start_download s r
            else { s with download_queue := s.download_queue ++ [r] }) := rfl
    rw [hstep]
    by_cases hlt : s.active_downloads < (mc : Int)
    · rw [if_pos hlt]
      rw [ih (start_download s r) h]
      show (s.started ++ [r]) ++ rest = _
      rw [List.append_assoc, List.singleton_append]
    · rw [if_neg hlt]
      rw [admitAll_saturated mc rest { s with download_queue := s.download_queue ++ [r] }
        (not_lt.mp hlt)]
      show s.started ++ ((s.download_queue ++ [r]) ++ rest) = _
      rw [h]
      rfl

/-- On each tick the drain loop reaches its fixpoint: afterwards either
the cap is filled or the queue is empty. -/
theorem drain_fixpoint (mc : Nat) : ∀ (fuel : Nat) (s : Sched),
    s.download_queue.length ≤ fuel →
    (drainAux mc fuel s).active_downloads < (mc : Int) →
    (drainAux mc fuel s).download_queue = [] := by
  intro fuel
  induction fuel with
  | zero =>
    intro s hfuel _
    exact List.length_eq_zero.mp (Nat.le_zero.mp hfuel)
  | succ fuel ih =>
    intro s hfuel hlt2
    unfold drainAux at hlt2 ⊢
    by_cases hlt : s.active_downloads < (mc : Int)
    · rw [if_pos hlt] at hlt2 ⊢
      cases hq : s.download_queue with
      | nil =>
        simp only [hq] at hlt2 ⊢
      | cons r rest =>
        simp only [hq] at hlt2 ⊢
        apply ih
        · show rest.length ≤ fuel
          rw [hq] at hfuel
          simp only [List.length_cons] at hfuel
          omega
        · exact hlt2
    · rw [if_neg hlt] at hlt2
      exact absurd hlt2 hlt

/-- C4: the pending queue preserves submission (FIFO) order and
admission order equals submission order: over every run that submits a
batch once and then sees only non-submission events, the `started` log
is at all times a prefix of the batch (requests are admitted in
submission order); and on every tick with the download active, the
drain loop admits queued requests until the cap is filled or the queue
is empty — a freed slot is always refilled from the queue head. -/
theorem c4_fifo_admission :
    (∀ (mc : Nat) (fmts : List Nat) (rest : List Ev),
      (∀ e ∈ rest, isSubmit e = false) →
      ∃ t, (execEvents mc rest (download_selected mc fmts initSched)).started ++ t = fmts)
    ∧ ∀ (mc : Nat) (s : Sched), s.is_downloading = true → s.download_progress ≠ [] →
        (update_download_progress mc s).active_downloads < (mc : Int) →
        (update_download_progress mc s).download_queue = [] := by
  constructor
  · intro mc fmts rest hns
    have hseed : ∃ t, (download_selected mc fmts initSched).started
        ++ (download_selected mc fmts initSched).download_queue ++ t = fmts := by
      refine ⟨[], ?_⟩
      rw [List.append_nil]
      unfold download_selected
      split
      · rename_i hnil
        rw [hnil]
        rfl
      · exact admitAll_started_queue mc fmts _ rfl
    obtain ⟨t, ht⟩ := execKeepsBatch mc rest fmts _ hns hseed
    refine ⟨(execEvents mc rest (download_selected mc fmts initSched)).download_queue ++ t, ?_⟩
    rw [← List.append_assoc]
    exact ht
  · intro mc s h1 h2 h3
    unfold update_download_progress at h3 ⊢
    rw [if_neg (by push_neg; exact ⟨by simp [h1], h2⟩)] at h3 ⊢
    exact drain_fixpoint mc s.download_queue.length s (le_refl _) h3

/-- C4 witness: cap 1, batch [1,2,3], then finish/tick/finish/tick — the
admitted log is exactly the batch, in order; and the theorem's tick
conclusion applied to the one-task state. -/
theorem c4_fifo_admission_witness :
    (execEvents 1 [Ev.finish 0, Ev.tick, Ev.finish 1, Ev.tick]
        (download_selected 1 [1, 2, 3] initSched)).started = [1, 2, 3]
    ∧ (∃ t, (execEvents 1 [Ev.finish 0, Ev.tick, Ev.finish 1, Ev.tick]
        (download_selected 1 [1, 2, 3] initSched)).started ++ t = [1, 2, 3])
    ∧ (update_download_progress 2 oneTaskSched).download_queue = [] :=
  ⟨by decide,
   c4_fifo_admission.1 1 [1, 2, 3] [Ev.finish 0, Ev.tick, Ev.finish 1, Ev.tick] (by decide),
   c4_fifo_admission.2 2 oneTaskSched rfl (by decide) (by decide)⟩

/-! ### C6 and C7: terminal events and pause behaviour of the workers -/

/-- Terminal signals count of an appended trace. -/
theorem terminalCount_append (a b : List WEvent) :
    terminalCount (a ++ b) = terminalCount a + terminalCount b := by
  unfold terminalCount
  rw [List.filter_append, List.length_append]

/-- The progress hooks of one `ydl.download` call emit no terminal
signal. -/
theorem runAttempt_no_terminal : ∀ (steps : List (FlagObs × HookD)) (fin : AttemptEnd)
    (lf : Option String), terminalCount (runAttempt steps fin lf).1 = 0 := by
  intro steps
  induction steps with
  | nil => intro fin lf; cases fin <;> rfl
  | cons p rest ih =>
    intro fin lf
    unfold runAttempt
    split
    · rfl
    · split
      · rfl
      · unfold terminalCount at ih ⊢
        simp only [List.filter_cons]
        show (List.filter isTerminalW (runAttempt rest fin _).1).length = 0
        exact ih fin _

/-- The `while True` loop of `DownloadWorker.run` emits no terminal
signal: `finished` / `error` can only be appended after it ends. -/
theorem runLoop_no_terminal : ∀ (sched : List LoopIter) (lf : Option String),
    terminalCount (runLoop sched lf).1 = 0 := by
  intro sched
  induction sched with
  | nil => intro lf; rfl
  | cons it rest ih =>
    intro lf
    unfold runLoop
    split
    · rfl
    · split
      · exact ih lf
      · dsimp only
        split
        · exact runAttempt_no_terminal it.att.steps it.att.fin lf
        · rw [terminalCount_append, runAttempt_no_terminal]
          rfl
        · rename_i heq
          rw [terminalCount_append, runAttempt_no_terminal]
          unfold terminalCount
          rw [List.filter_cons,
            if_neg (show ¬ (isTerminalW (WEvent.logW ("下载暂停...")) = true) from Bool.false_ne_true)]
          have h2 := ih (runAttempt it.att.steps it.att.fin lf).2.1
          unfold terminalCount at h2
          omega
        · exact runAttempt_no_terminal it.att.steps it.att.fin lf

/-- The ED2K chunk loop emits no `download_finished` signal. -/
theorem simLoop_no_finished (fs chunkSize : Nat) : ∀ (sched : List ChunkSched)
    (i n dl : Nat), finishedECount (simLoop fs chunkSize sched i n dl).1 = 0 := by
  intro sched
  induction sched with
  | nil => intro i n dl; cases n <;> rfl
  | cons cs rest ih =>
    intro i n dl
    cases n with
    | zero => rfl
    | succ n =>
      unfold simLoop
      split
      · rfl
      · split
        · rfl
        · split
          · rfl
          · unfold finishedECount
            rw [List.filter_append, List.length_append]
            have h1 : finishedECount (simLoop fs chunkSize rest (i + 1) n
                (dl + min chunkSize (fs - i * chunkSize))).1 = 0 := ih _ _ _
            unfold finishedECount at h1
            rw [h1]
            split
            · rfl
            · rfl

/-- Count of `download_finished` in an appended ED2K trace. -/
theorem finishedECount_append (a b : List EEvent) :
    finishedECount (a ++ b) = finishedECount a + finishedECount b := by
  unfold finishedECount
  rw [List.filter_append, List.length_append]

/-- C6 amended: a `DownloadWorker` whose run loop ends (the download
completed or an exception escaped) when the cancel flag is not set
emits exactly one terminal event, and it is the last event of its trace
— no progress event follows it; but with the cancel flag set at the
final check the run emits NO terminal event at all; and the ED2K
simulated download emits its `download_finished` exactly when it ends
on the success path — interrupted, hung-paused or underdetermined runs
emit none. -/
theorem c6_terminal_amended :
    (∀ sched : List LoopIter, (runLoop sched none).2.2 ≠ RunEnd.outOfSchedule →
      ∃ pre t, runWorker sched false = pre ++ [t] ∧ isTerminalW t = true
        ∧ terminalCount pre = 0)
    ∧ (∀ sched : List LoopIter, terminalCount (runWorker sched true) = 0)
    ∧ ∀ (fs initDl : Nat) (sched : List ChunkSched) (fobs : EObs),
        finishedECount (edSimulate fs initDl sched fobs).1
          = (if (edSimulate fs initDl sched fobs).2.2 = SimResult.finishedR then 1 else 0) := by
  refine ⟨?_, ?_, ?_⟩
  · intro sched hend
    have h0 := runLoop_no_terminal sched none
    unfold runWorker
    dsimp only
    cases hr : (runLoop sched none).2.2 with
    | broke =>
      simp only [hr]
      exact ⟨(runLoop sched none).1,
        WEvent.finishedW ((runLoop sched none).2.1.getD ("")), rfl, rfl, h0⟩
    | exnOut m =>
      simp only [hr]
      exact ⟨(runLoop sched none).1, WEvent.errorEvW m, rfl, rfl, h0⟩
    | outOfSchedule => exact absurd hr hend
  · intro sched
    have h0 := runLoop_no_terminal sched none
    unfold runWorker
    dsimp only
    cases hr : (runLoop sched none).2.2 <;> simp only [hr] <;> exact h0
  · intro fs initDl sched fobs
    have h0 := simLoop_no_finished fs 1048576 sched 0 (max 1 (fs / 1048576)) initDl
    unfold edSimulate
    dsimp only
    cases hr : (simLoop fs 1048576 sched 0 (max 1 (fs / 1048576)) initDl).2.2 with
    | noSched => simp only [hr]; exact h0
    | hungWait => simp only [hr]; exact h0
    | loopDone =>
      simp only [hr]
      split
      · split
        · rw [finishedECount_append, h0]
          rfl
        · exact h0
      · rw [finishedECount_append, h0]
        rfl
    | loopBreak =>
      simp only [hr]
      split
      · split
        · rw [finishedECount_append, h0]
          rfl
        · exact h0
      · rw [finishedECount_append, h0]
        rfl

/-- C6 witness: the first conjunct of the amended theorem applied to a
one-iteration schedule whose download completes. -/
theorem c6_terminal_amended_witness :
    (runLoop [oneHookIter] none).2.2 ≠ RunEnd.outOfSchedule
    ∧ ∃ pre t, runWorker [oneHookIter] false = pre ++ [t] ∧ isTerminalW t = true
        ∧ terminalCount pre = 0 :=
  ⟨by decide, c6_terminal_amended.1 [oneHookIter] (by decide)⟩

/-- C7 amended: for the yt-dlp `DownloadWorker` the claim holds — a
pause observed at the top of the run loop makes that iteration a pure
idle (no event is emitted, nothing terminates, the loop goes on with
the remaining schedule unchanged), and a pause raised by the progress
hook inside a download only logs and retries, so the already-downloaded
progress is untouched and the transfer continues after resume.  (The
ED2K simulated download violates the claim; see the counterexample.) -/
theorem c7_pause_amended :
    (∀ (att : Attempt) (rest : List LoopIter) (lf : Option String),
      runLoop (⟨⟨false, true⟩, att⟩ :: rest) lf = runLoop rest lf)
    ∧ ∀ (d : HookD) (steps : List (FlagObs × HookD)) (fin : AttemptEnd)
        (rest : List LoopIter) (lf : Option String),
        runLoop (⟨⟨false, false⟩, ⟨(⟨false, true⟩, d) :: steps, fin⟩⟩ :: rest) lf
          = (WEvent.logW ("下载暂停...") :: (runLoop rest lf).1,
             (runLoop rest lf).2.1, (runLoop rest lf).2.2) := by
  constructor
  · intro att rest lf
    rfl
  · intro d steps fin rest lf
    rfl

/-! ### C10: filename sanitising -/

/-- `splitext` recomposes: base and extension concatenate back to the
input. -/
theorem splitextOn_append (l : List Char) :
    (splitextOn l).1 ++ (splitextOn l).2 = l := by
  unfold splitextOn
  cases lastDotIdx l with
  | none => exact List.append_nil l
  | some i =>
    dsimp only
    split
    · exact List.take_append_drop i l
    · exact List.append_nil l

/-- Digit characters are not illegal filename characters. -/
theorem digitChar_not_illegal : ∀ d : Nat, d < 10 → Char.ofNat (48 + d) ∉ illegalChars := by
  decide

/-- The fuel recursion computes the reversed digit expansion. -/
theorem natCharsAux_eq : ∀ (fuel n : Nat), n ≤ fuel →
    natCharsAux fuel n = ((Nat.digits 10 n).map (fun d => Char.ofNat (48 + d))).reverse := by
  intro fuel
  induction fuel with
  | zero =>
    intro n hn
    rw [Nat.le_zero.mp hn]
    simp [natCharsAux, Nat.digits_zero]
  | succ fuel ih =>
    intro n hn
    unfold natCharsAux
    by_cases h0 : n = 0
    · rw [if_pos h0, h0]
      simp [Nat.digits_zero]
    · rw [if_neg h0]
      rw [Nat.digits_def' (by norm_num : (1 : Nat) < 10) (Nat.pos_of_ne_zero h0)]
      rw [List.map_cons, List.reverse_cons]
      rw [ih (n / 10) (by
        have := Nat.div_lt_self (Nat.pos_of_ne_zero h0) (by norm_num : (1 : Nat) < 10)
        omega)]

/-- `natChars` equals the digit-expansion formulation. -/
theorem natChars_eq (n : Nat) : natChars n
    = if n = 0 then ['0']
      else ((Nat.digits 10 n).map (fun d => Char.ofNat (48 + d))).reverse := by
  unfold natChars
  by_cases h0 : n = 0
  · rw [if_pos h0, if_pos h0]
  · rw [if_neg h0, if_neg h0]
    exact natCharsAux_eq n n (le_refl n)

/-- No character of `natChars` is an illegal filename character. -/
theorem natChars_not_illegal (n : Nat) : ∀ c ∈ natChars n, c ∉ illegalChars := by
  intro c hc
  rw [natChars_eq] at hc
  split at hc
  · rw [List.mem_singleton.mp hc]
    decide
  · rw [List.mem_reverse] at hc
    obtain ⟨d, hd, hEq⟩ := List.mem_map.mp hc
    rw [← hEq]
    exact digitChar_not_illegal d (Nat.digits_lt_base (by norm_num) hd)

/-- No character of the cleaned, truncated name is illegal. -/
theorem cleaned_not_illegal (filename : List Char) :
    ∀ c ∈ (cleanChars filename).take 200, c ∉ illegalChars := by
  intro c hc
  have hm : c ∈ cleanChars filename := List.take_subset 200 _ hc
  unfold cleanChars at hm
  have := (List.mem_filter.mp hm).2
  exact of_decide_eq_true this

/-- Every candidate name is free of illegal characters: turn 0 is the
cleaned name itself, later turns re-assemble base, `_`, decimal digits
and the extension. -/
theorem candidateName_not_illegal (filename : List Char) (k : Nat) :
    ∀ c ∈ candidateName ((cleanChars filename).take 200)
        (splitextOn ((cleanChars filename).take 200)).1
        (splitextOn ((cleanChars filename).take 200)).2 k,
      c ∉ illegalChars := by
  intro c hc
  cases k with
  | zero => exact cleaned_not_illegal filename c hc
  | succ k =>
    unfold candidateName at hc
    have hsplit := splitextOn_append ((cleanChars filename).take 200)
    rcases List.mem_append.mp hc with hbase | hrest
    · exact cleaned_not_illegal filename c
        (hsplit ▸ List.mem_append_left _ hbase)
    · rcases List.mem_cons.mp hrest with rfl | htail
      · decide
      · rcases List.mem_append.mp htail with hdig | hext
        · exact natChars_not_illegal (k + 1) c hdig
        · exact cleaned_not_illegal filename c
            (hsplit ▸ List.mem_append_right _ hext)

/-- Mapping to digit characters is injective on digit lists. -/
theorem mapDigitChar_inj : ∀ (l1 l2 : List Nat), (∀ d ∈ l1, d < 10) → (∀ d ∈ l2, d < 10) →
    l1.map (fun d => Char.ofNat (48 + d)) = l2.map (fun d => Char.ofNat (48 + d)) →
    l1 = l2 := by
  intro l1
  induction l1 with
  | nil =>
    intro l2 _ _ h
    cases l2 with
    | nil => rfl
    | cons b l2 => exact absurd h (by simp)
  | cons a l1 ih =>
    intro l2 h1 h2 h
    cases l2 with
    | nil => exact absurd h (by simp)
    | cons b l2 =>
      simp only [List.map_cons, List.cons.injEq] at h
      have hab : a = b := by
        have ha := h1 a (List.mem_cons_self a l1)
        have hb := h2 b (List.mem_cons_self b l2)
        revert ha hb
        revert h
        intro h
        have hchar := h.1
        intro ha hb
        interval_cases a <;> interval_cases b <;> first | rfl | exact absurd hchar (by decide)
      rw [hab, ih l2 (fun d hd => h1 d (List.mem_cons_of_mem a hd))
        (fun d hd => h2 d (List.mem_cons_of_mem b hd)) h.2]

/-- The decimal rendering of naturals is injective. -/
theorem natChars_inj : ∀ m n : Nat, natChars m = natChars n → m = n := by
  have hz : ∀ n : Nat, n ≠ 0 → natChars n ≠ ['0'] := by
    intro n hn hcon
    rw [natChars_eq, if_neg hn] at hcon
    have h1 : (Nat.digits 10 n).map (fun d => Char.ofNat (48 + d)) = ['0'] := by
      have := congrArg List.reverse hcon
      rwa [List.reverse_reverse] at this
    have h2 : Nat.digits 10 n = [0] := by
      apply mapDigitChar_inj
      · intro d hd; exact Nat.digits_lt_base (by norm_num) hd
      · intro d hd; rw [List.mem_singleton.mp hd]; norm_num
      · rw [h1]; rfl
    have := Nat.ofDigits_digits 10 n
    rw [h2] at this
    simp [Nat.ofDigits] at this
    exact hn this.symm
  intro m n h
  by_cases hm : m = 0 <;> by_cases hn : n = 0
  · rw [hm, hn]
  · exfalso
    apply hz n hn
    rw [← h, hm]
    rfl
  · exfalso
    apply hz m hm
    rw [h, hn]
    rfl
  · rw [natChars_eq, natChars_eq, if_neg hm, if_neg hn] at h
    have h1 := congrArg List.reverse h
    rw [List.reverse_reverse, List.reverse_reverse] at h1
    have h2 : Nat.digits 10 m = Nat.digits 10 n := by
      apply mapDigitChar_inj
      · intro d hd; exact Nat.digits_lt_base (by norm_num) hd
      · intro d hd; exact Nat.digits_lt_base (by norm_num) hd
      · exact h1
    have h3 := Nat.ofDigits_digits 10 m
    rw [h2, Nat.ofDigits_digits 10 n] at h3
    exact h3.symm

/-- Distinct counters give distinct suffixed candidates. -/
theorem candidateName_succ_inj (clean base ext : List Char) (k j : Nat)
    (h : candidateName clean base ext (k + 1) = candidateName clean base ext (j + 1)) :
    k = j := by
  unfold candidateName at h
  have h1 := List.append_cancel_left h
  have h2 := List.cons.inj h1
  have h3 := List.append_cancel_right h2.2
  have := natChars_inj (k + 1) (j + 1) h3
  omega

/-- Pigeonhole: among the first `existing.length + 2` candidates one
does not name an existing file. -/
theorem exists_free_candidate (existing : List (List Char)) (clean base ext : List Char) :
    ∃ k, k < existing.length + 2 ∧ candidateName clean base ext k ∉ existing := by
  by_contra hcon
  push_neg at hcon
  have hall : ∀ k, k < existing.length + 2 → candidateName clean base ext k ∈ existing := hcon
  have hinj : Function.Injective (fun i => candidateName clean base ext (i + 1)) := by
    intro i j hEq
    exact candidateName_succ_inj clean base ext i j hEq
  have hnodup : ((List.range (existing.length + 1)).map
      (fun i => candidateName clean base ext (i + 1))).Nodup :=
    (List.nodup_range _).map hinj
  have hsub : ((List.range (existing.length + 1)).map
      (fun i => candidateName clean base ext (i + 1))).toFinset ⊆ existing.toFinset := by
    intro x hx
    rw [List.mem_toFinset] at hx
    obtain ⟨i, hi, hEq⟩ := List.mem_map.mp hx
    rw [List.mem_range] at hi
    rw [List.mem_toFinset, ← hEq]
    exact hall (i + 1) (by omega)
  have hcard1 : ((List.range (existing.length + 1)).map
      (fun i => candidateName clean base ext (i + 1))).toFinset.card
      = existing.length + 1 := by
    rw [List.toFinset_card_of_nodup hnodup, List.length_map, List.length_range]
  have hcard2 := Finset.card_le_card hsub
  have hcard3 := existing.toFinset_card_le
  omega

/-- The collision loop returns a free candidate whenever one exists in
the fuel window. -/
theorem findFree_free (clean base ext : List Char) (existing : List (List Char)) :
    ∀ (fuel k : Nat), (∃ j, k ≤ j ∧ j < k + fuel ∧ candidateName clean base ext j ∉ existing) →
    candidateName clean base ext (findFree clean base ext existing fuel k) ∉ existing := by
  intro fuel
  induction fuel with
  | zero =>
    intro k h
    obtain ⟨j, hkj, hjk, _⟩ := h
    omega
  | succ fuel ih =>
    intro k h
    unfold findFree
    by_cases hmem : candidateName clean base ext k ∈ existing
    · rw [if_pos hmem]
      apply ih
      obtain ⟨j, hkj, hjk, hfree⟩ := h
      have hjne : j ≠ k := by
        intro hEq
        rw [hEq] at hfree
        exact hfree hmem
      exact ⟨j, by omega, by omega, hfree⟩
    · rw [if_neg hmem]
      exact hmem

/-- C10: for every input string and every directory content,
`sanitize_filename` returns a name containing none of the characters
deleted by its substitution, and the returned name does not name a file
already existing in the save directory (the numeric collision suffix is
bumped until the name is free).  The truncation to 200 characters is
applied before the collision suffix — by construction of
`candidateName`, a suffixed candidate may be longer than 200 characters
yet is still built only from legal characters. -/
theorem c10_sanitize_filename : ∀ (existing : List (List Char)) (filename : List Char),
    (∀ c ∈ sanitize_filename existing filename, c ∉ illegalChars)
    ∧ sanitize_filename existing filename ∉ existing := by
  intro existing filename
  constructor
  · intro c hc
    exact candidateName_not_illegal filename _ c hc
  · show candidateName _ _ _ _ ∉ existing
    apply findFree_free
    obtain ⟨k, hk, hfree⟩ := exists_free_candidate existing
      ((cleanChars filename).take 200)
      (splitextOn ((cleanChars filename).take 200)).1
      (splitextOn ((cleanChars filename).take 200)).2
    exact ⟨k, by omega, by omega, hfree⟩

/-- C10 witness: the theorem applied to a directory containing `a.t`
and the input `a<>.t`: the sanitised name drops the illegal characters
and gains the collision suffix, so it is not `a.t` and keeps no illegal
character. -/
theorem c10_sanitize_filename_witness :
    sanitize_filename [['a', '.', 't']] ['a', '<', '>', '.', 't'] = ['a', '_', '1', '.', 't']
    ∧ ('a' ∈ sanitize_filename [['a', '.', 't']] ['a', '<', '>', '.', 't'] → 'a' ∉ illegalChars)
    ∧ sanitize_filename [['a', '.', 't']] ['a', '<', '>', '.', 't'] ∉ [['a', '.', 't']] :=
  ⟨by decide,
   (c10_sanitize_filename [['a', '.', 't']] ['a', '<', '>', '.', 't']).1 'a',
   (c10_sanitize_filename [['a', '.', 't']] ['a', '<', '>', '.', 't']).2⟩

end Yeguo
